import Mathlib

/-!
Shallow embedding of the commit-activity aggregation engine of GitView
(`src/app/page.tsx`, the `chartData` `useMemo` in `Home`, lines 72-156),
together with theorems settling the frozen claims about it.

Modelling conventions:
* A JavaScript `Date` is modelled as `Option Int`: `some t` is a valid
  timestamp of `t` seconds since the Unix epoch, `none` is an Invalid Date
  (`new Date(undefined)` for a missing field; every numeric comparison
  against `NaN` is false).
* The day-bucketing timezone is fixed to UTC, so a calendar day is the
  floor of the timestamp divided by 86400 seconds (`dayOf`).
* `format(d, 'yyyy-MM-dd')` keys are injective in the calendar day, so the
  map key is modelled as the day index itself.
* `format(d, 'MMM dd')` drops the year; it is modelled as the pair
  `(month, dayOfMonth)` obtained from the civil calendar.
* `new Date("MMM dd")` (the sort comparator on chart rows) parses a
  year-less label; V8 defaults the year to 2001, modelled by `parse2001`.
* JavaScript `Map` preserves insertion order and `Array.prototype.sort` is
  stable; a `Map` is an association list and `sort(cmp)` is
  `List.insertionSort` with `le a b := cmp(a, b) ≤ 0` (a stable sort with
  respect to a total preorder has a unique result, so any stable sort
  models it faithfully).
* `date-fns` `eachDayOfInterval` (v2) raises `RangeError` on an invalid or
  reversed interval; the aggregator is therefore embedded as an `Except`.
-/

/-- Seconds in one calendar day (UTC model, no DST). -/
def secondsPerDay : Int := 86400

/-- Calendar-day index of a timestamp: floor division by 86400, as a
JavaScript date truncated to its (UTC) day. -/
def dayOf (t : Int) : Int := Int.fdiv t secondsPerDay

/-- Civil calendar date `(year, month, dayOfMonth)` of a day index
(days since 1970-01-01), standard proleptic-Gregorian conversion. -/
def civilFromDays (z : Int) : Int × Int × Int :=
  let z := z + 719468
  let era : Int := Int.fdiv z 146097
  let doe : Int := z - era * 146097
  let yoe : Int := Int.fdiv (doe - Int.fdiv doe 1460 + Int.fdiv doe 36524 - Int.fdiv doe 146096) 365
  let y : Int := yoe + era * 400
  let doy : Int := doe - (365 * yoe + Int.fdiv yoe 4 - Int.fdiv yoe 100)
  let mp : Int := Int.fdiv (5 * doy + 2) 153
  let d : Int := doy - Int.fdiv (153 * mp + 2) 5 + 1
  let m : Int := mp + (if mp < 10 then 3 else -9)
  (y + (if m ≤ 2 then 1 else 0), m, d)

/-- Day index (days since 1970-01-01) of a civil date, standard
proleptic-Gregorian conversion; out-of-range components normalize
arithmetically, as the JavaScript `Date` component constructor does. -/
def daysFromCivil (y m d : Int) : Int :=
  let y := y - (if m ≤ 2 then 1 else 0)
  let era : Int := Int.fdiv y 400
  let yoe : Int := y - era * 400
  let doy : Int := Int.fdiv (153 * (m + (if m > 2 then -3 else 9)) + 2) 5 + d - 1
  let doe : Int := yoe * 365 + Int.fdiv yoe 4 - Int.fdiv yoe 100 + doy
  era * 146097 + doe - 719468

/-- The `'MMM dd'` label of a day index: month and day of month, the year
dropped, exactly as `format(d, 'MMM dd')` renders chart labels. -/
def monthDay (z : Int) : Int × Int :=
  let c := civilFromDays z
  (c.2.1, c.2.2)

/-- Day index that `new Date("MMM dd")` produces for a year-less label:
V8 defaults the unspecified year to 2001. -/
def parse2001 (md : Int × Int) : Int := daysFromCivil 2001 md.1 md.2

/-- `startOfISOWeek(t)`: midnight of the most recent Monday at or before
`t` (day 0 = 1970-01-01 was a Thursday). -/
def startOfISOWeek (t : Int) : Int :=
  (dayOf t - Int.fmod (dayOf t + 3) 7) * secondsPerDay

/-- `startOfMonth(t)`: midnight of the first day of `t`'s month. -/
def startOfMonth (t : Int) : Int :=
  let c := civilFromDays (dayOf t)
  daysFromCivil c.1 c.2.1 1 * secondsPerDay

/-- The `author` object of a GitHub commit (`commit.author` in the API
payload): the platform account, present only for recognized accounts. -/
structure GitAuthor where
  login : String
  avatar_url : String
deriving DecidableEq, Repr

/-- One commit as the aggregator consumes it. `name` and `date` are
`commit.commit.author.name` / `commit.commit.author.date`; `date` is
`none` when the field is missing (`new Date(undefined)` = Invalid Date). -/
structure Commit where
  sha : String
  author : Option GitAuthor
  name : String
  date : Option Int
deriving DecidableEq, Repr

/-- One entry of the `contributorMap` (`{ name, avatar_url, totalCommits }`). -/
structure ContribData where
  name : String
  avatar_url : String
  totalCommits : Nat
deriving DecidableEq, Repr

/-- One element of the `contributors` output array. -/
structure Contributor where
  login : String
  name : String
  avatar_url : String
  totalCommits : Nat
  dailyCommits : List ((Int × Int) × Nat)
deriving DecidableEq, Repr

/-- The value of the `chartData` memo when commits are present. -/
structure ChartData where
  allCommits : List ((Int × Int) × Nat)
  contributors : List Contributor
deriving DecidableEq, Repr

/-- The only exception the aggregation expression can raise:
`RangeError('Invalid interval')` from `eachDayOfInterval` when the window
start is an Invalid Date or after the window end. -/
inductive RangeErr where
  | invalidInterval
deriving DecidableEq, Repr

/-- The filter predicate of `filteredCommits` (page.tsx lines 92-95):
`commitDate >= startDate && commitDate <= endDate`; an Invalid Date
(`none`) fails both comparisons, as NaN does. -/
def inWindow (s e : Int) (c : Commit) : Bool :=
  match c.date with
  | some t => decide (s ≤ t) && decide (t ≤ e)
  | none => false

/-- `filteredCommits` (page.tsx line 92): the commits whose author date
lies in `[start, end]`. -/
def filteredCommits (commits : List Commit) (s e : Int) : List Commit :=
  commits.filter (inWindow s e)

/-- `eachDayOfInterval({start, end})` as day indices: one day per calendar
day from `start`'s day to `end`'s day inclusive, ascending. -/
def dayList (s e : Int) : List Int :=
  (List.range (dayOf e - dayOf s + 1).toNat).map (fun (i : Nat) => dayOf s + (i : Int))

/-- The freshly initialized date map: one zero bucket per day of the
interval, in insertion (ascending) order. -/
def initDayMap (s e : Int) : List (Int × Nat) :=
  (dayList s e).map (fun d => (d, 0))

/-- One `dateMap.set(key, get(key) + 1)` guarded by `dateMap.has(key)`
(page.tsx lines 102-104): increment the bucket if the key exists,
otherwise leave the map unchanged. -/
def bump : List (Int × Nat) → Int → List (Int × Nat)
  | [], _ => []
  | (k, v) :: rest, d => if k = d then (k, v + 1) :: rest else (k, v) :: bump rest d

/-- The `forEach` loop filling a date map: each commit contributes the
bucket of its author date's day, keyed through `keyOf` (`none` = the
commit is skipped by the loop's guard). -/
def fillDayMap (keyOf : Commit → Option Int) (m : List (Int × Nat))
    (commits : List Commit) : List (Int × Nat) :=
  commits.foldl (fun m c => match keyOf c with | some d => bump m d | none => m) m

/-- The day key contributed by a commit: the day of its author date. -/
def dayKey (c : Commit) : Option Int := c.date.map dayOf

/-- The global `dateMap` after the fill loop (page.tsx lines 98-105),
still keyed by calendar day. -/
def globalDateMap (commits : List Commit) (s e : Int) : List (Int × Nat) :=
  fillDayMap dayKey (initDayMap s e) (filteredCommits commits s e)

/-- Does this commit carry the given platform login
(`commit.author?.login === login`)? -/
def loginIs (login : String) (c : Commit) : Bool :=
  match c.author with
  | some a => a.login == login
  | none => false

/-- The day key contributed by a commit to one contributor's map: its day
when the commit carries that login, `none` otherwise. -/
def loginDayKey (login : String) (c : Commit) : Option Int :=
  if loginIs login c then c.date.map dayOf else none

/-- One contributor's `dailyCommitsMap` after its fill loop (page.tsx
lines 130-139), still keyed by calendar day. -/
def perLoginDateMap (commits : List Commit) (s e : Int) (login : String) :
    List (Int × Nat) :=
  fillDayMap (loginDayKey login) (initDayMap s e) (filteredCommits commits s e)

/-- The order in which `sort((a, b) => new Date(a.date) - new Date(b.date))`
arranges labelled rows: by the label parsed at the default year 2001. -/
def labelLE (a b : (Int × Int) × Nat) : Prop := parse2001 a.1 ≤ parse2001 b.1

instance : DecidableRel labelLE := fun a b => inferInstanceAs (Decidable (_ ≤ _))

/-- The `.map(([date, commits]) => ({date: format(date, 'MMM dd'), commits}))
.sort((a, b) => new Date(a.date) - new Date(b.date))` step (page.tsx lines
107-110 and 141-144): relabel each bucket with its year-less label, then
stable-sort by the label parsed at the default year 2001. -/
def labelSort (m : List (Int × Nat)) : List ((Int × Int) × Nat) :=
  (m.map (fun p => (monthDay p.1, p.2))).insertionSort labelLE

/-- One step of the `contributorMap` fold (page.tsx lines 114-127): a new
login is appended with its name, avatar and count 1 (`set` with 0 followed
by `+= 1`); an existing login keeps its stored name and avatar and only
its count grows. -/
def bumpContrib : List (String × ContribData) → String → String → String →
    List (String × ContribData)
  | [], login, nm, av => [(login, ⟨nm, av, 1⟩)]
  | (k, dta) :: rest, login, nm, av =>
    if k = login then (k, { dta with totalCommits := dta.totalCommits + 1 }) :: rest
    else (k, dta) :: bumpContrib rest login nm av

/-- The `contributorMap` built from the ENTIRE commit list (page.tsx lines
112-127); commits whose `author` is null are skipped. -/
def contributorMap (commits : List Commit) : List (String × ContribData) :=
  commits.foldl
    (fun m c =>
      match c.author with
      | some a => bumpContrib m a.login c.name a.avatar_url
      | none => m)
    []

/-- The order produced by `sort((a, b) => b.totalCommits - a.totalCommits)`:
descending by total commit count. -/
def totalGE (a b : Contributor) : Prop := b.totalCommits ≤ a.totalCommits

instance : DecidableRel totalGE := fun a b => inferInstanceAs (Decidable (_ ≤ _))

/-- The `contributors` output array (page.tsx lines 129-153): each map
entry paired with its window-scoped daily series, sorted descending by
`totalCommits` (`(a, b) => b.totalCommits - a.totalCommits`, stable). -/
def buildContributors (commits : List Commit) (s e : Int) : List Contributor :=
  ((contributorMap commits).map
    (fun p =>
      { login := p.1
        name := p.2.name
        avatar_url := p.2.avatar_url
        totalCommits := p.2.totalCommits
        dailyCommits := labelSort (perLoginDateMap commits s e p.1) })).insertionSort
    totalGE

/-- The `allCommitsChartData` array (page.tsx lines 107-110). -/
def buildAllCommits (commits : List Commit) (s e : Int) : List ((Int × Int) × Nat) :=
  labelSort (globalDateMap commits s e)

/-- `startDate` resolution (page.tsx lines 75-90): the `switch` on the
selected time range. The selection is an open string; an unrecognized
value falls through to the `default:` arm, which silently reuses the
start of the current month. For `all_time` the start is the author date
of the LAST element of the commit array (`commits[commits.length - 1]`),
which may be an Invalid Date (`none`). -/
def resolveStart (sel : String) (commits : List Commit) (now : Int) : Option Int :=
  if sel = "this_week" then some (startOfISOWeek now)
  else if sel = "this_month" then some (startOfMonth now)
  else if sel = "all_time" then
    match commits.getLast? with
    | some c => c.date
    | none => some now
  else some (startOfMonth now)

/-- The whole `chartData` memo (page.tsx lines 72-156): `none` for an
empty commit list (line 73); a `RangeError` when `eachDayOfInterval`
receives an invalid or reversed interval; otherwise the global series and
the contributor summaries. -/
def chartData (commits : List Commit) (sel : String) (now : Int) :
    Except RangeErr (Option ChartData) :=
  if commits.isEmpty then .ok none
  else
    match resolveStart sel commits now with
    | none => .error .invalidInterval
    | some s =>
      if s ≤ now then
        .ok (some
          { allCommits := buildAllCommits commits s now
            contributors := buildContributors commits s now })
      else .error .invalidInterval

/-- Sum of the per-day counts of a labelled series. -/
def sumCounts (l : List ((Int × Int) × Nat)) : Nat :=
  (l.map (fun p => p.2)).sum

/-- Total of all bucket counts of a day-keyed map. -/
def mapSum (m : List (Int × Nat)) : Nat := (m.map Prod.snd).sum

/-- The avatar URL stored for a commit's author (meaningful only when the
author is present). -/
def avatarOf (c : Commit) : String :=
  match c.author with
  | some a => a.avatar_url
  | none => ""

/-- The `contributorMap` fold started from an arbitrary map state. -/
def contribFold (m : List (String × ContribData)) (cs : List Commit) :
    List (String × ContribData) :=
  cs.foldl
    (fun m c =>
      match c.author with
      | some a => bumpContrib m a.login c.name a.avatar_url
      | none => m)
    m


/-- The window-independent projection of a contributor entry:
`(login, displayName, avatarUrl, totalCommits)`. -/
def contribProj (x : Contributor) : String × String × String × Nat :=
  (x.login, x.name, x.avatar_url, x.totalCommits)

/-- The contributor sort order carried along `contribProj`. -/
def projGE (a b : String × String × String × Nat) : Prop := b.2.2.2 ≤ a.2.2.2

instance : DecidableRel projGE := fun a b => inferInstanceAs (Decidable (_ ≤ _))

/-- Does the commit carry an author whose login is in the given list? -/
def authorIn (L : List String) (c : Commit) : Bool :=
  match c.author with
  | some a => L.contains a.login
  | none => false

/-- `a` was authored no earlier than `b` (on the valid dates); the relation
under which the GitHub commits endpoint delivers its list (newest first). -/
def newerEq (a b : Commit) : Prop :=
  ∀ ta tb, a.date = some ta → b.date = some tb → tb ≤ ta

/-! ### Concrete inputs used by the witnesses and counterexamples
(timestamps in seconds since the epoch: 1703980800 = 2023-12-31T00:00Z,
1704067200 = 2024-01-01T00:00Z, 1704110400 = 2024-01-01T12:00Z). -/

def aliceA : GitAuthor := { login := "alice", avatar_url := "https-alice-1" }

def aliceB : GitAuthor := { login := "alice", avatar_url := "https-alice-2" }

def bobA : GitAuthor := { login := "bob", avatar_url := "https-bob" }

def nowJan1 : Int := 1704110400

def commitJan1 : Commit :=
  { sha := "a1", author := none, name := "Anon A", date := some 1704067200 }

def commitDec31 : Commit :=
  { sha := "a2", author := none, name := "Anon B", date := some 1703980800 }

def commitAlice1 : Commit :=
  { sha := "c1", author := some aliceA, name := "Alice One", date := some 1704067200 }

def commitAlice2 : Commit :=
  { sha := "c2", author := some aliceB, name := "Alice Two", date := some 1704070800 }

def commitBob : Commit :=
  { sha := "c3", author := some bobA, name := "Bob", date := some 1704067200 }

def commitNoDate : Commit :=
  { sha := "c4", author := some aliceA, name := "Alice NoDate", date := none }

def commitEarly : Commit :=
  { sha := "e1", author := none, name := "Early", date := some 864000 }

def commitLate : Commit :=
  { sha := "e2", author := none, name := "Late", date := some 1728000 }

/-! ### Helper lemmas about days and the window -/

theorem dayOf_mono {s t : Int} (h : s ≤ t) : dayOf s ≤ dayOf t := by
  unfold dayOf secondsPerDay
  rw [Int.fdiv_eq_ediv _ (by decide), Int.fdiv_eq_ediv _ (by decide)]
  exact Int.ediv_le_ediv (by decide) h

theorem mem_dayList {s e d : Int} : d ∈ dayList s e ↔ dayOf s ≤ d ∧ d ≤ dayOf e := by
  simp only [dayList, List.mem_map, List.mem_range]
  constructor
  · rintro ⟨i, hi, rfl⟩
    omega
  · rintro ⟨h1, h2⟩
    exact ⟨(d - dayOf s).toNat, by omega, by omega⟩

theorem dayList_nodup (s e : Int) : (dayList s e).Nodup := by
  refine List.Nodup.map ?_ (List.nodup_range _)
  intro a b h
  replace h : dayOf s + (a : Int) = dayOf s + (b : Int) := h
  omega

theorem dayList_length (s e : Int) :
    (dayList s e).length = (dayOf e - dayOf s + 1).toNat := by
  simp [dayList]

theorem mem_dayList_of_inWindow {s e : Int} {c : Commit} {t : Int}
    (hc : c.date = some t) (hw : inWindow s e c = true) : dayOf t ∈ dayList s e := by
  unfold inWindow at hw
  rw [hc] at hw
  simp only [Bool.and_eq_true, decide_eq_true_eq] at hw
  exact mem_dayList.mpr ⟨dayOf_mono hw.1, dayOf_mono hw.2⟩

/-! ### Helper lemmas about the date maps -/

theorem bump_keys (m : List (Int × Nat)) (d : Int) :
    (bump m d).map Prod.fst = m.map Prod.fst := by
  induction m with
  | nil => rfl
  | cons p rest ih =>
    obtain ⟨k, v⟩ := p
    unfold bump
    by_cases h : k = d <;> simp [h, ih]

theorem bump_lookup (m : List (Int × Nat)) (d k : Int) :
    (bump m d).lookup k =
      if k = d then (m.lookup k).map (· + 1) else m.lookup k := by
  induction m with
  | nil => simp [bump]
  | cons p rest ih =>
    obtain ⟨k₀, v₀⟩ := p
    unfold bump
    by_cases h0 : k₀ = d
    · subst h0
      by_cases hk : k = k₀
      · subst hk; simp [List.lookup]
      · simp [List.lookup, hk, beq_false_of_ne hk]
    · by_cases hk : k = k₀
      · subst hk
        simp only [if_neg h0]
        simp [List.lookup, Ne.symm h0]
      · simp [List.lookup, beq_false_of_ne hk, ih, h0]

theorem fillDayMap_keys (keyOf : Commit → Option Int) (xs : List Commit)
    (m : List (Int × Nat)) :
    (fillDayMap keyOf m xs).map Prod.fst = m.map Prod.fst := by
  induction xs generalizing m with
  | nil => rfl
  | cons c xs ih =>
    unfold fillDayMap at ih ⊢
    cases h : keyOf c <;> simp only [List.foldl_cons, h]
    · exact ih m
    · rw [ih, bump_keys]

theorem fillDayMap_lookup (keyOf : Commit → Option Int) (xs : List Commit)
    (m : List (Int × Nat)) (k : Int) :
    (fillDayMap keyOf m xs).lookup k =
      (m.lookup k).map (· + xs.countP (fun x => keyOf x == some k)) := by
  induction xs generalizing m with
  | nil =>
    simp [fillDayMap]
  | cons c xs ih =>
    unfold fillDayMap at ih ⊢
    cases h : keyOf c with
    | none =>
      simp only [List.foldl_cons, h]
      rw [ih, List.countP_cons]
      simp [h]
    | some d =>
      simp only [List.foldl_cons, h]
      rw [ih, bump_lookup, List.countP_cons]
      by_cases hk : k = d
      · subst hk
        simp only [if_pos rfl, h, beq_iff_eq, Option.some.injEq]
        cases m.lookup k <;> simp <;> omega
      · simp only [if_neg hk, h, beq_iff_eq, Option.some.injEq]
        have : ¬ (d = k) := fun hh => hk hh.symm
        simp [this]

theorem zeroMap_lookup (l : List Int) (k : Int) :
    ((l.map (fun d => (d, (0 : Nat)))).lookup k) = if k ∈ l then some 0 else none := by
  induction l with
  | nil => simp
  | cons d l ih =>
    by_cases h : k = d
    · subst h; simp [List.lookup]
    · simp [List.lookup, beq_false_of_ne h, ih, h]

theorem initDayMap_keys (s e : Int) : (initDayMap s e).map Prod.fst = dayList s e := by
  unfold initDayMap
  rw [List.map_map]
  exact List.map_id _

theorem initDayMap_lookup (s e k : Int) :
    (initDayMap s e).lookup k = if k ∈ dayList s e then some 0 else none :=
  zeroMap_lookup _ _

theorem globalDateMap_lookup (cs : List Commit) (s e d : Int) (hd : d ∈ dayList s e) :
    (globalDateMap cs s e).lookup d =
      some ((filteredCommits cs s e).countP (fun c => dayKey c == some d)) := by
  unfold globalDateMap
  rw [fillDayMap_lookup, initDayMap_lookup, if_pos hd]
  simp

theorem perLoginDateMap_lookup (cs : List Commit) (s e : Int) (login : String)
    (d : Int) (hd : d ∈ dayList s e) :
    (perLoginDateMap cs s e login).lookup d =
      some ((filteredCommits cs s e).countP (fun c => loginDayKey login c == some d)) := by
  unfold perLoginDateMap
  rw [fillDayMap_lookup, initDayMap_lookup, if_pos hd]
  simp

theorem bump_sum_mem {m : List (Int × Nat)} {d : Int} (h : d ∈ m.map Prod.fst) :
    mapSum (bump m d) = mapSum m + 1 := by
  induction m with
  | nil => simp at h
  | cons p rest ih =>
    obtain ⟨k, v⟩ := p
    unfold bump
    by_cases hk : k = d
    · simp [mapSum, hk]
      omega
    · have hr : d ∈ rest.map Prod.fst := by
        simp only [List.map_cons, List.mem_cons] at h
        rcases h with h | h
        · exact absurd h.symm hk
        · exact h
      have h2 := ih hr
      simp only [mapSum, List.map_cons, List.sum_cons] at h2 ⊢
      rw [if_neg hk]
      simp only [List.map_cons, List.sum_cons]
      omega

theorem bump_not_mem {m : List (Int × Nat)} {d : Int} (h : d ∉ m.map Prod.fst) :
    bump m d = m := by
  induction m with
  | nil => rfl
  | cons p rest ih =>
    obtain ⟨k, v⟩ := p
    simp only [List.map_cons, List.mem_cons, not_or] at h
    unfold bump
    rw [if_neg (by exact fun hh => h.1 hh.symm), ih h.2]

theorem fillDayMap_sum (keyOf : Commit → Option Int) (xs : List Commit)
    (m : List (Int × Nat)) :
    mapSum (fillDayMap keyOf m xs) =
      mapSum m + xs.countP (fun x =>
        match keyOf x with
        | some d => decide (d ∈ m.map Prod.fst)
        | none => false) := by
  induction xs generalizing m with
  | nil => simp [fillDayMap]
  | cons c xs ih =>
    unfold fillDayMap at ih ⊢
    cases h : keyOf c with
    | none =>
      simp only [List.foldl_cons, h, List.countP_cons, h]
      rw [ih]
      simp [h]
    | some d =>
      simp only [List.foldl_cons, h]
      by_cases hd : d ∈ m.map Prod.fst
      · rw [ih, bump_sum_mem hd, bump_keys, List.countP_cons]
        simp [h, hd]
        omega
      · rw [bump_not_mem hd, ih, List.countP_cons]
        simp [h, hd]

theorem initDayMap_sum (s e : Int) : mapSum (initDayMap s e) = 0 := by
  unfold initDayMap mapSum
  rw [List.map_map]
  induction dayList s e with
  | nil => rfl
  | cons d l ih => simpa using ih

theorem labelSort_sum (m : List (Int × Nat)) : sumCounts (labelSort m) = mapSum m := by
  unfold labelSort sumCounts mapSum
  have hperm : List.Perm ((m.map (fun p => (monthDay p.1, p.2))).insertionSort labelLE)
      (m.map (fun p => (monthDay p.1, p.2))) := List.perm_insertionSort _ _
  rw [(hperm.map (fun p => p.2)).sum_eq, List.map_map]
  rfl

/-! ### Helper lemmas about the contributor map -/

theorem bumpContrib_lookup (m : List (String × ContribData)) (login nm av : String)
    (k : String) :
    (bumpContrib m login nm av).lookup k =
      if k = login then
        match m.lookup login with
        | some dta => some { dta with totalCommits := dta.totalCommits + 1 }
        | none => some ⟨nm, av, 1⟩
      else m.lookup k := by
  induction m with
  | nil =>
    by_cases hk : k = login
    · simp [bumpContrib, List.lookup, hk]
    · simp [bumpContrib, List.lookup, hk, beq_false_of_ne hk]
  | cons p rest ih =>
    obtain ⟨k₀, dta₀⟩ := p
    unfold bumpContrib
    by_cases h0 : k₀ = login
    · subst h0
      by_cases hk : k = k₀
      · subst hk; simp [List.lookup]
      · simp [List.lookup, hk, beq_false_of_ne hk]
    · by_cases hk : k = k₀
      · subst hk
        have : ¬ k = login := h0
        simp [List.lookup, this, if_neg h0]
      · simp only [if_neg h0]
        by_cases hkl : k = login
        · subst hkl
          simp [List.lookup, beq_false_of_ne hk, beq_false_of_ne h0, ih]
        · simp [List.lookup, beq_false_of_ne hk, hkl, ih]

theorem bumpContrib_keys (m : List (String × ContribData)) (login nm av : String) :
    (bumpContrib m login nm av).map Prod.fst =
      if login ∈ m.map Prod.fst then m.map Prod.fst else m.map Prod.fst ++ [login] := by
  induction m with
  | nil => simp [bumpContrib]
  | cons p rest ih =>
    obtain ⟨k₀, dta₀⟩ := p
    unfold bumpContrib
    by_cases h0 : k₀ = login
    · subst h0
      simp
    · simp only [if_neg h0, List.map_cons, ih]
      by_cases hm : login ∈ rest.map Prod.fst
      · simp [hm, Ne.symm h0]
      · simp [hm, Ne.symm h0]

theorem contributorMap_eq_fold (cs : List Commit) :
    contributorMap cs = contribFold [] cs := rfl

theorem contribFold_lookup (cs : List Commit) (m : List (String × ContribData))
    (l : String) :
    (contribFold m cs).lookup l =
      match m.lookup l with
      | some dta => some { dta with totalCommits := dta.totalCommits + cs.countP (loginIs l) }
      | none =>
        match cs.find? (loginIs l) with
        | some c => some ⟨c.name, avatarOf c, cs.countP (loginIs l)⟩
        | none => none := by
  induction cs generalizing m with
  | nil =>
    cases h : m.lookup l <;> simp [contribFold, h]
  | cons c cs ih =>
    cases hc : c.author with
    | none =>
      have hli : loginIs l c = false := by simp [loginIs, hc]
      have step : contribFold m (c :: cs) = contribFold m cs := by
        simp [contribFold, hc]
      rw [step, ih, List.countP_cons, List.find?_cons_of_neg _ (by simp [hli]), hli]
      simp
    | some a =>
      have step : contribFold m (c :: cs) =
          contribFold (bumpContrib m a.login c.name a.avatar_url) cs := by
        simp [contribFold, hc]
      rw [step, ih, bumpContrib_lookup]
      by_cases hl : l = a.login
      · subst hl
        have hli : loginIs a.login c = true := by simp [loginIs, hc]
        rw [List.countP_cons, List.find?_cons_of_pos _ hli, hli]
        simp only [if_pos rfl]
        cases hm : m.lookup a.login with
        | some dta =>
          simp [hm, ContribData.mk.injEq]
          omega
        | none =>
          simp [hm, avatarOf, hc, ContribData.mk.injEq]
          omega
      · have hli : loginIs l c = false := by
          simp only [loginIs, hc]
          exact beq_false_of_ne (fun hh => hl hh.symm)
        rw [if_neg hl, List.countP_cons, List.find?_cons_of_neg _ (by simp [hli]), hli]
        simp

theorem contributorMap_lookup (cs : List Commit) (l : String) :
    (contributorMap cs).lookup l =
      match cs.find? (loginIs l) with
      | some c => some ⟨c.name, avatarOf c, cs.countP (loginIs l)⟩
      | none => none := by
  rw [contributorMap_eq_fold, contribFold_lookup]
  simp

theorem contribFold_keys_nodup (cs : List Commit) (m : List (String × ContribData))
    (h : (m.map Prod.fst).Nodup) : ((contribFold m cs).map Prod.fst).Nodup := by
  induction cs generalizing m with
  | nil => exact h
  | cons c cs ih =>
    cases hc : c.author with
    | none =>
      have step : contribFold m (c :: cs) = contribFold m cs := by
        simp [contribFold, hc]
      rw [step]
      exact ih m h
    | some a =>
      have step : contribFold m (c :: cs) =
          contribFold (bumpContrib m a.login c.name a.avatar_url) cs := by
        simp [contribFold, hc]
      rw [step]
      apply ih
      rw [bumpContrib_keys]
      by_cases hm : a.login ∈ m.map Prod.fst
      · rwa [if_pos hm]
      · rw [if_neg hm]
        simp [List.nodup_append, h, hm]

theorem contributorMap_keys_nodup (cs : List Commit) :
    ((contributorMap cs).map Prod.fst).Nodup := by
  rw [contributorMap_eq_fold]
  exact contribFold_keys_nodup cs [] (by simp)

theorem alookup_of_mem {α β : Type} [BEq α] [LawfulBEq α] {m : List (α × β)} {k : α}
    {v : β} (nd : (m.map Prod.fst).Nodup) (h : (k, v) ∈ m) : m.lookup k = some v := by
  induction m with
  | nil => simp at h
  | cons p rest ih =>
    obtain ⟨k₀, v₀⟩ := p
    simp only [List.map_cons, List.nodup_cons] at nd
    rcases List.mem_cons.mp h with h1 | h2
    · rw [Prod.mk.injEq] at h1
      obtain ⟨rfl, rfl⟩ := h1
      simp [List.lookup]
    · have hk : k ≠ k₀ := by
        rintro rfl
        exact nd.1 (List.mem_map_of_mem Prod.fst h2)
      simp only [List.lookup, beq_false_of_ne hk]
      exact ih nd.2 h2

theorem mem_keys_of_lookup {α β : Type} [BEq α] [LawfulBEq α] {m : List (α × β)}
    {k : α} {v : β} (h : m.lookup k = some v) : k ∈ m.map Prod.fst := by
  have : (m.lookup k).isSome := by rw [h]; rfl
  rcases List.lookup_isSome_iff.mp this with ⟨p, hp, he⟩
  rw [beq_iff_eq] at he
  exact he ▸ List.mem_map_of_mem Prod.fst hp

theorem contributorMap_keys_complete {cs : List Commit} {c : Commit} {a : GitAuthor}
    (hmem : c ∈ cs) (ha : c.author = some a) :
    a.login ∈ (contributorMap cs).map Prod.fst := by
  have hfind : (cs.find? (loginIs a.login)).isSome := by
    rw [List.find?_isSome]
    exact ⟨c, hmem, by simp [loginIs, ha]⟩
  rw [Option.isSome_iff_exists] at hfind
  obtain ⟨c0, hc0⟩ := hfind
  have := contributorMap_lookup cs a.login
  rw [hc0] at this
  exact mem_keys_of_lookup this

/-! ### Summation helpers -/

theorem sum_map_zero {α : Type} (L : List α) : (L.map (fun _ => (0 : Nat))).sum = 0 := by
  induction L with
  | nil => rfl
  | cons x L ih => simpa using ih

theorem sum_map_add {α : Type} (L : List α) (f g : α → Nat) :
    (L.map (fun l => f l + g l)).sum = (L.map f).sum + (L.map g).sum := by
  induction L with
  | nil => rfl
  | cons x L ih =>
    simp only [List.map_cons, List.sum_cons, ih]
    omega

theorem indicator_sum (L : List String) (key : String) (nd : L.Nodup) :
    (L.map (fun l => if key = l then (1 : Nat) else 0)).sum =
      if key ∈ L then 1 else 0 := by
  induction L with
  | nil => simp
  | cons x L ih =>
    simp only [List.nodup_cons] at nd
    simp only [List.map_cons, List.sum_cons, ih nd.2]
    by_cases hx : key = x
    · subst hx
      simp [nd.1]
    · simp [hx, List.mem_cons]

theorem sum_countP_logins (L : List String) (xs : List Commit) (nd : L.Nodup) :
    (L.map (fun l => xs.countP (loginIs l))).sum = xs.countP (authorIn L) := by
  induction xs with
  | nil => simpa using sum_map_zero L
  | cons x xs ih =>
    have hsplit :
        (L.map (fun l => (x :: xs).countP (loginIs l))).sum =
          (L.map (fun l => xs.countP (loginIs l))).sum +
          (L.map (fun l => if loginIs l x then 1 else 0)).sum := by
      rw [← sum_map_add]
      apply congrArg
      apply List.map_congr_left
      intro l _
      rw [List.countP_cons]
    rw [hsplit, ih, List.countP_cons]
    congr 1
    cases hx : x.author with
    | none =>
      have h1 : ∀ l, loginIs l x = false := fun l => by simp [loginIs, hx]
      have h2 : authorIn L x = false := by simp [authorIn, hx]
      simp only [h1, h2, if_neg Bool.false_ne_true]
      simpa using sum_map_zero L
    | some a =>
      have h1 : ∀ l, (if loginIs l x then (1 : Nat) else 0) =
          if a.login = l then 1 else 0 := by
        intro l
        simp [loginIs, hx, beq_iff_eq]
      simp only [h1]
      rw [indicator_sum L a.login nd]
      have h2 : authorIn L x = decide (a.login ∈ L) := by
        simp [authorIn, hx, List.contains]
      rw [h2]
      by_cases hm : a.login ∈ L <;> simp [hm]

/-! ### The global series sums to the filtered-commit count -/

theorem mem_filtered_window {cs : List Commit} {s e : Int} {c : Commit}
    (h : c ∈ filteredCommits cs s e) : ∃ t, c.date = some t ∧ s ≤ t ∧ t ≤ e := by
  have hw := (List.mem_filter.mp h).2
  unfold inWindow at hw
  cases hd : c.date with
  | none => rw [hd] at hw; exact absurd hw (by simp)
  | some t =>
    rw [hd] at hw
    simp only [Bool.and_eq_true, decide_eq_true_eq] at hw
    exact ⟨t, rfl, hw.1, hw.2⟩

theorem globalDateMap_sum (cs : List Commit) (s e : Int) :
    mapSum (globalDateMap cs s e) = (filteredCommits cs s e).length := by
  unfold globalDateMap
  rw [fillDayMap_sum, initDayMap_sum, initDayMap_keys, Nat.zero_add]
  rw [List.countP_eq_length]
  intro c hc
  obtain ⟨t, hd, h1, h2⟩ := mem_filtered_window hc
  have : dayKey c = some (dayOf t) := by simp [dayKey, hd]
  rw [this]
  simp only [decide_eq_true_eq]
  exact mem_dayList.mpr ⟨dayOf_mono h1, dayOf_mono h2⟩

/-! ### Order instances for the contributor sort -/

instance : IsTotal Contributor totalGE :=
  ⟨fun a b => Nat.le_total b.totalCommits a.totalCommits⟩

instance : IsTrans Contributor totalGE :=
  ⟨fun _ _ _ h1 h2 => Nat.le_trans h2 h1⟩

/-! ### Structural helpers for the claims -/

theorem chartData_ok (cs : List Commit) (sel : String) (now s : Int)
    (hne : cs ≠ []) (hres : resolveStart sel cs now = some s) (hle : s ≤ now) :
    chartData cs sel now =
      .ok (some { allCommits := buildAllCommits cs s now
                  contributors := buildContributors cs s now }) := by
  have hemp : ¬ (cs.isEmpty = true) := fun h => hne (List.isEmpty_iff.mp h)
  unfold chartData
  rw [if_neg hemp, hres]
  exact if_pos hle

theorem contribFold_filter_authors (cs : List Commit)
    (m : List (String × ContribData)) :
    contribFold m cs = contribFold m (cs.filter (fun c => c.author.isSome)) := by
  induction cs generalizing m with
  | nil => rfl
  | cons c cs ih =>
    cases hc : c.author with
    | none =>
      have hp : (fun c : Commit => c.author.isSome) c = false := by simp [hc]
      rw [List.filter_cons_of_neg (by simpa using hp)]
      have step : contribFold m (c :: cs) = contribFold m cs := by
        simp [contribFold, hc]
      rw [step, ih]
    | some a =>
      have hp : (fun c : Commit => c.author.isSome) c = true := by simp [hc]
      rw [List.filter_cons_of_pos (by simpa using hp)]
      have step1 : contribFold m (c :: cs) =
          contribFold (bumpContrib m a.login c.name a.avatar_url) cs := by
        simp [contribFold, hc]
      have step2 : contribFold m (c :: cs.filter (fun c => c.author.isSome)) =
          contribFold (bumpContrib m a.login c.name a.avatar_url)
            (cs.filter (fun c => c.author.isSome)) := by
        simp [contribFold, hc]
      rw [step1, step2, ih]

theorem pairwise_getLast {α : Type} {R : α → α → Prop} :
    ∀ {l : List α} {x : α}, l.Pairwise R → l.getLast? = some x →
      ∀ y ∈ l, y = x ∨ R y x := by
  intro l
  induction l with
  | nil => intro x _ h; simp at h
  | cons a l ih =>
    intro x hp hl y hy
    cases l with
    | nil =>
      simp at hl
      rcases List.mem_singleton.mp hy with rfl
      exact Or.inl hl
    | cons b m =>
      rw [List.getLast?_cons_cons] at hl
      rcases List.mem_cons.mp hy with rfl | hy2
      · have hx : x ∈ b :: m := List.mem_of_getLast?_eq_some hl
        exact Or.inr ((List.pairwise_cons.mp hp).1 x hx)
      · exact ih (List.pairwise_cons.mp hp).2 hl y hy2

theorem fillDayMap_filter (keyOf : Commit → Option Int) (p : Commit → Bool)
    (h : ∀ x, p x = false → keyOf x = none) (xs : List Commit)
    (m : List (Int × Nat)) :
    fillDayMap keyOf m xs = fillDayMap keyOf m (xs.filter p) := by
  induction xs generalizing m with
  | nil => rfl
  | cons c xs ih =>
    by_cases hp : p c = true
    · rw [List.filter_cons_of_pos hp]
      unfold fillDayMap at ih ⊢
      simp only [List.foldl_cons]
      cases hk : keyOf c <;> simp only [hk] <;> exact ih _
    · have hp2 : p c = false := by simpa using hp
      rw [List.filter_cons_of_neg (by simp [hp2])]
      have hk := h c hp2
      unfold fillDayMap at ih ⊢
      simp only [List.foldl_cons, hk]
      exact ih m

theorem perLoginDateMap_filter_authors (cs : List Commit) (s e : Int) (l : String) :
    perLoginDateMap cs s e l =
      perLoginDateMap (cs.filter (fun c => c.author.isSome)) s e l := by
  unfold perLoginDateMap
  rw [fillDayMap_filter (loginDayKey l) (fun c => c.author.isSome) ?hkey]
  case hkey =>
    intro x hx
    have : x.author = none := Option.not_isSome_iff_eq_none.mp (by simp [hx])
    simp [loginDayKey, loginIs, this]
  congr 1
  unfold filteredCommits
  rw [List.filter_filter, List.filter_filter]
  apply List.filter_congr
  intro a _
  exact Bool.and_comm _ _

theorem buildContributors_filter_authors (cs : List Commit) (s e : Int) :
    buildContributors cs s e =
      buildContributors (cs.filter (fun c => c.author.isSome)) s e := by
  unfold buildContributors
  have h1 : contributorMap (cs.filter (fun c => c.author.isSome)) = contributorMap cs := by
    rw [contributorMap_eq_fold, contributorMap_eq_fold]
    exact (contribFold_filter_authors cs []).symm
  rw [h1]
  exact congrArg _ (List.map_congr_left
    (fun p _ => by rw [perLoginDateMap_filter_authors cs s e p.1]))

/-! ### The claims -/

/-- Claim C1: for every non-empty commit list and every window `(start, now)`
resolved from a selection at a fixed `now` (the resolved start being valid and
not after `now`, so that the series exists), the sum of the counts over all
entries of the global daily series equals the number of commits whose author
date falls within `[start, now]` inclusive. -/
theorem claim1_daily_series_sum (cs : List Commit) (sel : String) (now s : Int)
    (hne : cs ≠ []) (hres : resolveStart sel cs now = some s) (hle : s ≤ now) :
    ∃ out, chartData cs sel now = .ok (some out) ∧
      sumCounts out.allCommits = cs.countP (inWindow s now) := by
  refine ⟨_, chartData_ok cs sel now s hne hres hle, ?_⟩
  show sumCounts (buildAllCommits cs s now) = _
  unfold buildAllCommits
  rw [labelSort_sum, globalDateMap_sum]
  unfold filteredCommits
  rw [List.countP_eq_length_filter]

theorem claim1_daily_series_sum_witness :
    ∃ out, chartData [commitAlice1, commitAlice2, commitBob] "all_time" nowJan1 =
        .ok (some out) ∧
      sumCounts out.allCommits =
        ([commitAlice1, commitAlice2, commitBob]).countP (inWindow 1704067200 nowJan1) :=
  claim1_daily_series_sum [commitAlice1, commitAlice2, commitBob] "all_time" nowJan1
    1704067200 (by decide) (by decide) (by decide)

/-- Claim C2 (code bug): the daily series is supposed to be ordered ascending
by calendar date, but the code formats each bucket to a year-less label BEFORE
sorting and then sorts by parsing those labels (which all land in the default
year 2001).  At the failing input below, the window spans the 2023→2024 year
boundary: the underlying buckets are the ascending days 19722 = 2023-12-31 and
19723 = 2024-01-01, yet the emitted series puts the row for 2024-01-01 (label
`Jan 01`) BEFORE the row for 2023-12-31 (label `Dec 31`), because
`parse2001 (1,1) < parse2001 (12,31)`.  For windows longer than a year the
year-less labels also repeat, so entry dates are not unique either. -/
theorem claim2_ordering_bug :
    chartData [commitJan1, commitDec31] "all_time" nowJan1 =
      .ok (some { allCommits := [((1, 1), 1), ((12, 31), 1)], contributors := [] }) ∧
    dayList 1703980800 nowJan1 = [19722, 19723] ∧
    monthDay 19722 = (12, 31) ∧
    monthDay 19723 = (1, 1) ∧
    parse2001 (1, 1) < parse2001 (12, 31) := by
  refine ⟨by rfl, by decide, by decide, by decide, by decide⟩

/-- Claim C3: a commit with no author login is excluded from every
`ContributorSummary` (the contributors output over any list equals the output
over the list with all author-less commits removed), but when its author date
falls inside the window it still increments the global daily series bucket of
its day. -/
theorem claim3_no_login_commits (cs : List Commit) (s e : Int) (c : Commit)
    (t : Int) (hc : c.author = none) (hd : c.date = some t) (h1 : s ≤ t)
    (h2 : t ≤ e) :
    buildContributors cs s e =
      buildContributors (cs.filter (fun x => x.author.isSome)) s e ∧
    (globalDateMap (c :: cs) s e).lookup (dayOf t) =
      ((globalDateMap cs s e).lookup (dayOf t)).map (· + 1) := by
  refine ⟨buildContributors_filter_authors cs s e, ?_⟩
  have hw : inWindow s e c = true := by simp [inWindow, hd, h1, h2]
  unfold globalDateMap
  have hfc : filteredCommits (c :: cs) s e = c :: filteredCommits cs s e := by
    unfold filteredCommits
    rw [List.filter_cons_of_pos hw]
  rw [hfc]
  have hstep : fillDayMap dayKey (initDayMap s e) (c :: filteredCommits cs s e) =
      fillDayMap dayKey (bump (initDayMap s e) (dayOf t)) (filteredCommits cs s e) := by
    unfold fillDayMap
    simp [dayKey, hd]
  rw [hstep, fillDayMap_lookup, fillDayMap_lookup, bump_lookup, if_pos rfl]
  cases h : (initDayMap s e).lookup (dayOf t) <;> simp <;> omega

theorem claim3_no_login_commits_witness :
    buildContributors [commitAlice1] 1703980800 nowJan1 =
      buildContributors ([commitAlice1].filter (fun x => x.author.isSome))
        1703980800 nowJan1 ∧
    (globalDateMap (commitDec31 :: [commitAlice1]) 1703980800 nowJan1).lookup
        (dayOf 1703980800) =
      ((globalDateMap [commitAlice1] 1703980800 nowJan1).lookup
        (dayOf 1703980800)).map (· + 1) :=
  claim3_no_login_commits [commitAlice1] 1703980800 nowJan1 commitDec31 1703980800
    (by decide) (by decide) (by decide) (by decide)

/-- Claim C4: every emitted contributor's `totalCommits` equals the number of
commits carrying that login in the ENTIRE unfiltered commit list, and the
`(login, displayName, avatarUrl, totalCommits)` projection of the
contributors output is identical for every window (window-independent). -/
theorem claim4_total_commits (cs : List Commit) (s e s2 e2 : Int) :
    (∀ x ∈ buildContributors cs s e, x.totalCommits = cs.countP (loginIs x.login)) ∧
    (buildContributors cs s e).map contribProj =
      (buildContributors cs s2 e2).map contribProj := by
  constructor
  · intro x hx
    unfold buildContributors at hx
    rw [List.mem_insertionSort] at hx
    obtain ⟨p, hp, rfl⟩ := List.mem_map.mp hx
    obtain ⟨l, dta⟩ := p
    have hlk : (contributorMap cs).lookup l = some dta :=
      alookup_of_mem (contributorMap_keys_nodup cs) hp
    rw [contributorMap_lookup] at hlk
    cases hfind : cs.find? (loginIs l) with
    | none =>
      rw [hfind] at hlk
      exact absurd hlk (by simp)
    | some c0 =>
      rw [hfind] at hlk
      have := Option.some.inj hlk
      show dta.totalCommits = cs.countP (loginIs l)
      rw [← this]
  · unfold buildContributors
    rw [List.map_insertionSort totalGE projGE contribProj _
        (fun a _ b _ => Iff.rfl),
      List.map_insertionSort totalGE projGE contribProj _
        (fun a _ b _ => Iff.rfl),
      List.map_map, List.map_map]
    exact congrArg _ (List.map_congr_left (fun p _ => rfl))

theorem claim4_total_commits_witness :
    (∀ x ∈ buildContributors [commitAlice1, commitAlice2, commitBob] 1704067200
        nowJan1,
      x.totalCommits =
        ([commitAlice1, commitAlice2, commitBob]).countP (loginIs x.login)) ∧
    (buildContributors [commitAlice1, commitAlice2, commitBob] 1704067200
        nowJan1).map contribProj =
      (buildContributors [commitAlice1, commitAlice2, commitBob] 1703980800
        nowJan1).map contribProj :=
  claim4_total_commits [commitAlice1, commitAlice2, commitBob] 1704067200 nowJan1
    1703980800 nowJan1

/-- Claim C5 counterexample: the contributors list is NOT strictly descending
by `totalCommits` — two logins with one commit each tie, so position 0 does
not have a strictly greater total than position 1. -/
theorem claim5_counterexample :
    ¬ List.Pairwise (fun a b => a.totalCommits > b.totalCommits)
        (buildContributors [commitAlice1, commitBob] 1704067200 nowJan1) := by
  decide

/-- Claim C5 (amended): the contributors list is sorted descending (non-strict)
by `totalCommits`: for positions `i < j`,
`contributors[i].totalCommits ≥ contributors[j].totalCommits`. Ties are
possible and are kept in first-occurrence order by the stable sort. -/
theorem claim5_amended (cs : List Commit) (s e : Int) :
    List.Pairwise totalGE (buildContributors cs s e) := by
  unfold buildContributors
  exact List.sorted_insertionSort totalGE _

/-- Claim C6 counterexample: `displayName` and `avatarUrl` are NOT taken from
the most recently processed commit by the login.  With two commits by
`alice` — processed first with name `Alice One` / avatar `https-alice-1`,
processed last with name `Alice Two` / avatar `https-alice-2` — the emitted
entry carries the FIRST commit's identity, not the most recently processed
one. -/
theorem claim6_counterexample :
    (buildContributors [commitAlice1, commitAlice2] 1704067200 nowJan1).map
        (fun x => (x.login, x.name, x.avatar_url)) =
      [("alice", "Alice One", "https-alice-1")] ∧
    ("Alice One", "https-alice-1") ≠ ("Alice Two", "https-alice-2") := by
  exact ⟨by decide, by decide⟩

/-- Claim C6 (amended): every emitted contributor's `displayName` and
`avatarUrl` are taken from the FIRST processed commit carrying that login
(the earliest occurrence in iteration order; since the commit source delivers
newest-first, that is the login's most recent commit). -/
theorem claim6_amended (cs : List Commit) (s e : Int) :
    ∀ x ∈ buildContributors cs s e, ∃ c a,
      cs.find? (loginIs x.login) = some c ∧ c.author = some a ∧
      x.name = c.name ∧ x.avatar_url = a.avatar_url := by
  intro x hx
  unfold buildContributors at hx
  rw [List.mem_insertionSort] at hx
  obtain ⟨p, hp, rfl⟩ := List.mem_map.mp hx
  obtain ⟨l, dta⟩ := p
  have hlk : (contributorMap cs).lookup l = some dta :=
    alookup_of_mem (contributorMap_keys_nodup cs) hp
  rw [contributorMap_lookup] at hlk
  cases hfind : cs.find? (loginIs l) with
  | none =>
    rw [hfind] at hlk
    exact absurd hlk (by simp)
  | some c0 =>
    rw [hfind] at hlk
    have hdta := Option.some.inj hlk
    have hli : loginIs l c0 = true := List.find?_some hfind
    cases ha : c0.author with
    | none => simp [loginIs, ha] at hli
    | some a =>
      refine ⟨c0, a, rfl, ha, ?_, ?_⟩
      · show dta.name = c0.name
        rw [← hdta]
      · show dta.avatar_url = a.avatar_url
        rw [← hdta]
        show avatarOf c0 = a.avatar_url
        simp [avatarOf, ha]

theorem claim6_amended_witness :
    ∃ c a, ([commitAlice1, commitAlice2] : List Commit).find? (loginIs "alice") =
        some c ∧ c.author = some a ∧
      "Alice One" = c.name ∧ "https-alice-1" = a.avatar_url :=
  claim6_amended [commitAlice1, commitAlice2] 1704067200 nowJan1
    { login := "alice", name := "Alice One", avatar_url := "https-alice-1",
      totalCommits := 2, dailyCommits := [((1, 1), 2)] }
    (by decide)

/-- Claim C7 counterexample: for `all_time` the code takes the author date of
the LAST element of the commit array, not the chronologically earliest
commit.  In the list `[commitEarly, commitLate]` the chronologically earliest
commit is `commitEarly` (day 10), yet the resolved start is `commitLate`'s
date (day 20). -/
theorem claim7_counterexample :
    resolveStart "all_time" [commitEarly, commitLate] 99999999 = some 1728000 ∧
    resolveStart "all_time" [commitEarly, commitLate] 99999999 ≠ some 864000 ∧
    commitEarly.date = some 864000 ∧ commitLate.date = some 1728000 ∧
    (864000 : Int) < 1728000 := by
  exact ⟨by decide, by decide, by decide, by decide, by decide⟩

/-- Claim C7 (amended): for `all_time` the start is the author date of the
last element of the commit array (`commits[commits.length - 1]`); when the
array is ordered newest-first — as the commit source delivers it — that last
element is authored no later than every commit in the list, i.e. it is the
chronologically earliest.  For an empty array the start defaults to `now`. -/
theorem claim7_amended (cs : List Commit) (now : Int) (c : Commit)
    (hlast : cs.getLast? = some c) :
    resolveStart "all_time" cs now = c.date ∧
    (cs.Pairwise newerEq → ∀ x ∈ cs, newerEq x c) ∧
    resolveStart "all_time" [] now = some now := by
  refine ⟨?_, ?_, by rfl⟩
  · unfold resolveStart
    rw [if_neg (by decide), if_neg (by decide), if_pos rfl, hlast]
  · intro hpw x hx
    rcases pairwise_getLast hpw hlast x hx with rfl | hR
    · intro ta tb h1 h2
      rw [h1] at h2
      rw [Option.some.inj h2]
    · exact hR

theorem claim7_amended_witness :
    resolveStart "all_time" [commitLate, commitEarly] 99999999 =
      commitEarly.date ∧
    (([commitLate, commitEarly] : List Commit).Pairwise newerEq →
      ∀ x ∈ [commitLate, commitEarly], newerEq x commitEarly) ∧
    resolveStart "all_time" [] 99999999 = some 99999999 :=
  claim7_amended [commitLate, commitEarly] 99999999 commitEarly (by decide)

/-- Claim C8 counterexample: a commit record with a missing author date does
NOT make the aggregator fail fast — there is no `MalformedRecord` error
anywhere in the code.  At this input the aggregator returns a normal result
in which the malformed commit is silently dropped from every daily series
(its `NaN` date fails the window comparison) while still being counted in its
author's `totalCommits`. -/
theorem claim8_counterexample :
    chartData [commitBob, commitNoDate] "this_month" nowJan1 =
      .ok (some { allCommits := [((1, 1), 1)]
                  contributors := [
                    { login := "bob", name := "Bob", avatar_url := "https-bob",
                      totalCommits := 1, dailyCommits := [((1, 1), 1)] },
                    { login := "alice", name := "Alice NoDate",
                      avatar_url := "https-alice-1",
                      totalCommits := 1, dailyCommits := [((1, 1), 0)] }] }) := by
  rfl

/-- Claim C8 (amended): a commit record missing its author date is silently
tolerated: whenever the window resolves, the aggregator returns a normal
(error-free) output, and no commit with a missing date ever passes the window
filter, so it contributes to no daily series (it still counts toward its
author's `totalCommits`, which reads no date). -/
theorem claim8_amended (cs : List Commit) (sel : String) (now s : Int)
    (hne : cs ≠ []) (hres : resolveStart sel cs now = some s) (hle : s ≤ now) :
    (∃ out, chartData cs sel now = .ok (some out)) ∧
    ∀ c ∈ filteredCommits cs s now, c.date.isSome := by
  refine ⟨⟨_, chartData_ok cs sel now s hne hres hle⟩, ?_⟩
  intro c hc
  obtain ⟨t, hd, h1, h2⟩ := mem_filtered_window hc
  simp [hd]

theorem claim8_amended_witness :
    (∃ out, chartData [commitBob, commitNoDate] "this_month" nowJan1 =
      .ok (some out)) ∧
    ∀ c ∈ filteredCommits [commitBob, commitNoDate] 1704067200 nowJan1,
      c.date.isSome :=
  claim8_amended [commitBob, commitNoDate] "this_month" nowJan1 1704067200
    (by decide) (by decide) (by decide)

/-- Claim C9 counterexample: an unrecognized selection string does NOT fail
with an `InvalidSelection` error — the `default:` arm of the switch silently
produces the `this_month` window, and the whole aggregation proceeds exactly
as for `this_month`. -/
theorem claim9_counterexample :
    resolveStart "bogus" [commitBob] nowJan1 = some (startOfMonth nowJan1) ∧
    resolveStart "bogus" [commitBob] nowJan1 =
      resolveStart "this_month" [commitBob] nowJan1 ∧
    chartData [commitBob] "bogus" nowJan1 =
      chartData [commitBob] "this_month" nowJan1 := by
  exact ⟨by rfl, by rfl, by rfl⟩

/-- Claim C9 (amended): every selection that is not one of the three
recognized values is silently resolved to the `this_month` window
(`startOfMonth now`); no error is produced. -/
theorem claim9_amended (sel : String) (cs : List Commit) (now : Int)
    (h1 : sel ≠ "this_week") (h2 : sel ≠ "this_month") (h3 : sel ≠ "all_time") :
    resolveStart sel cs now = some (startOfMonth now) := by
  unfold resolveStart
  rw [if_neg h1, if_neg h2, if_neg h3]

theorem claim9_amended_witness :
    resolveStart "bogus" [commitBob] nowJan1 = some (startOfMonth nowJan1) :=
  claim9_amended "bogus" [commitBob] nowJan1 (by decide) (by decide) (by decide)

theorem buildContributors_logins_perm (cs : List Commit) (s e : Int) :
    List.Perm ((buildContributors cs s e).map (fun x => x.login))
      ((contributorMap cs).map Prod.fst) := by
  unfold buildContributors
  refine List.Perm.trans ((List.perm_insertionSort totalGE _).map _) ?_
  rw [List.map_map]
  exact List.Perm.of_eq (List.map_congr_left (fun p _ => rfl))

/-- Claim C10: for every commit list, window and day in the window, the sum
over all contributors of that day's count in their per-contributor daily maps
is at most the global daily count for the same day, with equality exactly when
every window-filtered commit on that day has an author login.  (The per-day
counts are read off the day-keyed maps; the emitted series only relabels and
reorders those buckets without changing any count.) -/
theorem claim10_contributor_day_sums (cs : List Commit) (s e d : Int)
    (hd : d ∈ dayList s e) :
    ∃ g, (globalDateMap cs s e).lookup d = some g ∧
      (((buildContributors cs s e).map (fun x => x.login)).map
          (fun l => ((perLoginDateMap cs s e l).lookup d).getD 0)).sum ≤ g ∧
      ((((buildContributors cs s e).map (fun x => x.login)).map
          (fun l => ((perLoginDateMap cs s e l).lookup d).getD 0)).sum = g ↔
        ∀ c ∈ filteredCommits cs s e, dayKey c = some d → c.author.isSome) := by
  have hnd : ((contributorMap cs).map Prod.fst).Nodup := contributorMap_keys_nodup cs
  have hcnt : ((buildContributors cs s e).map (fun x => x.login)).map
      (fun l => ((perLoginDateMap cs s e l).lookup d).getD 0) =
      ((buildContributors cs s e).map (fun x => x.login)).map
        (fun l => ((filteredCommits cs s e).filter
            (fun c => dayKey c == some d)).countP (loginIs l)) := by
    apply List.map_congr_left
    intro l _
    rw [perLoginDateMap_lookup cs s e l d hd]
    show (filteredCommits cs s e).countP (fun c => loginDayKey l c == some d) = _
    rw [List.countP_filter]
    apply List.countP_congr
    intro c _
    unfold loginDayKey
    by_cases h : loginIs l c = true
    · rw [if_pos h, h]
      show (dayKey c == some d) = true ↔ _
      simp
    · have h2 : loginIs l c = false := by simpa using h
      rw [if_neg (by simp [h2]), h2]
      simp
  have hkey : (((buildContributors cs s e).map (fun x => x.login)).map
      (fun l => ((perLoginDateMap cs s e l).lookup d).getD 0)).sum =
      ((filteredCommits cs s e).filter
        (fun c => dayKey c == some d)).countP
        (authorIn ((contributorMap cs).map Prod.fst)) := by
    rw [hcnt]
    rw [List.Perm.sum_eq ((buildContributors_logins_perm cs s e).map _)]
    exact sum_countP_logins ((contributorMap cs).map Prod.fst)
      ((filteredCommits cs s e).filter (fun c => dayKey c == some d)) hnd
  have hlen : ((filteredCommits cs s e).filter
      (fun c => dayKey c == some d)).length =
      (filteredCommits cs s e).countP (fun c => dayKey c == some d) :=
    Eq.symm (List.countP_eq_length_filter _ _)
  refine ⟨(filteredCommits cs s e).countP (fun c => dayKey c == some d),
    globalDateMap_lookup cs s e d hd, ?_, ?_⟩
  · rw [hkey]
    exact le_trans (List.countP_le_length _) (le_of_eq hlen)
  · rw [hkey, ← hlen, List.countP_eq_length]
    constructor
    · intro h c hcF hday
      have hcD : c ∈ (filteredCommits cs s e).filter
          (fun c => dayKey c == some d) := by
        rw [List.mem_filter]
        exact ⟨hcF, by rw [hday]; exact beq_self_eq_true _⟩
      cases ha : c.author with
      | none =>
        have := h c hcD
        simp [authorIn, ha] at this
      | some a => rfl
    · intro h c hcD
      obtain ⟨hcF, hdayb⟩ := List.mem_filter.mp hcD
      have hday : dayKey c = some d := eq_of_beq hdayb
      have hsome := h c hcF hday
      obtain ⟨a, ha⟩ := Option.isSome_iff_exists.mp hsome
      have hmemcs : c ∈ cs := (List.mem_filter.mp hcF).1
      have hkeys := contributorMap_keys_complete hmemcs ha
      show authorIn ((contributorMap cs).map Prod.fst) c = true
      simp [authorIn, ha, hkeys]

theorem claim10_contributor_day_sums_witness :
    ∃ g, (globalDateMap [commitAlice1, commitBob] 1704067200 nowJan1).lookup
        19723 = some g ∧
      (((buildContributors [commitAlice1, commitBob] 1704067200 nowJan1).map
          (fun x => x.login)).map
          (fun l => ((perLoginDateMap [commitAlice1, commitBob] 1704067200
            nowJan1 l).lookup 19723).getD 0)).sum ≤ g ∧
      ((((buildContributors [commitAlice1, commitBob] 1704067200 nowJan1).map
          (fun x => x.login)).map
          (fun l => ((perLoginDateMap [commitAlice1, commitBob] 1704067200
            nowJan1 l).lookup 19723).getD 0)).sum = g ↔
        ∀ c ∈ filteredCommits [commitAlice1, commitBob] 1704067200 nowJan1,
          dayKey c = some 19723 → c.author.isSome) :=
  claim10_contributor_day_sums [commitAlice1, commitBob] 1704067200 nowJan1 19723
    (by decide)
